import Mathlib

/-!
# Verification of the gdhttp request signing and URL normalization core

This file gives a shallow embedding, in Lean, of the core of the `gdhttp`
command line HTTP client (repository `mozillazg/gdhttp`):

* the URL construction / normalization logic of `cmd/utils.go`
  (`parsePositionalArguments`, `isValidMethod`, `buildURL`, `fillURL`) and of
  `cmd/substitute.go` (`substitute`);
* the request canonicalization and signing engine of the vendored
  `bitbucket.org/mozillazg/gdauth/auth.go` (`SignReq`, `setAuthHeader`,
  `sign`, `newHMACDigest`, `convertURLToString`, `convertHeadersToString`,
  `getInternalHeaders`, `sortMapByKey`).

Go strings are modelled as Lean `String` (a structure over `List Char`); the
inputs relevant to the claims are ASCII, where a Go byte corresponds exactly
to one `Char`.  Go standard-library collaborators (`net/url` parsing and
encoding, `crypto/sha1`, `crypto/hmac`, `encoding/base64`, `strings`
functions, regexp matching for the fixed regexps of the repository) are
modelled explicitly and executably below; each model notes the Go function it
stands for.  A Go runtime panic (assignment to an entry in a nil map) is
modelled by `Option`, with `none` for the panic.
-/

set_option maxRecDepth 8000

namespace Gdhttp

/-! ## Constants from `cmd/root.go` and `gdauth/auth.go` -/

/-- `const defaultScheme = "http"` in `cmd/root.go`. -/
def defaultScheme : String := "http"

/-- `const defaultHost = "localhost"` in `cmd/root.go`. -/
def defaultHost : String := "localhost"

/-- `var internalHeaderPrefix = "x-gd-"` in `gdauth/auth.go`. -/
def internalHeaderPrefixStr : String := "x-gd-"

/-- `var internalAuthPrefix = "GeneDock"` in `gdauth/auth.go`. -/
def internalAuthPrefixStr : String := "GeneDock"

/-- `const HMACSHA1V1 = "hmac-sha1-v1"` in `gdauth/auth.go`. -/
def HMACSHA1V1 : String := "hmac-sha1-v1"

/-! ## Go `strings` operations -/

/-- Go `strings.HasPrefix(s, pre)`. -/
def goHasPrefix (pre s : String) : Bool :=
  pre.data.isPrefixOf s.data

/-- Go `strings.ToLower` (ASCII, which covers all header names and method
tokens of interest). -/
def goToLower (s : String) : String :=
  ⟨s.data.map Char.toLower⟩

/-- Go `strings.ToUpper` (ASCII). -/
def goToUpper (s : String) : String :=
  ⟨s.data.map Char.toUpper⟩

/-- Go `strings.Split(s, "=")`: split on every occurrence of `'='`.
The fold keeps the invariant that the accumulator is nonempty. -/
def goSplitEq (l : List Char) : List (List Char) :=
  l.foldr
    (fun c acc =>
      if c = '=' then [] :: acc else (c :: acc.headD []) :: acc.tail)
    [[]]

/-- Go `strings.Split(s, "==")`: split on every non-overlapping occurrence
of `"=="`, scanning left to right. -/
def goSplitEqEq : List Char → List (List Char)
  | [] => [[]]
  | '=' :: '=' :: rest => [] :: goSplitEqEq rest
  | c :: rest =>
    match goSplitEqEq rest with
    | [] => [[c]]
    | h :: t => (c :: h) :: t

/-! ## The fixed regular expressions of `cmd/utils.go`

Each `reXMatch` function decides whether the corresponding Go regexp
(`regexp.MustCompile(...)`) matches the string, by the standard leftmost
matching semantics of the `regexp` package.  The patterns are anchored with
`^`, so a match must start at the beginning; `.` does not match a newline,
while a negated character class such as `[^=]` does. -/

/-- `reURLOnlyPort = regexp.MustCompile("^:\\d+")`: the string starts with a
colon followed by at least one ASCII digit. -/
def reURLOnlyPortMatch (s : String) : Bool :=
  match s.data with
  | ':' :: c :: _ => c.isDigit
  | _ => false

/-- `reURLHasScheme = regexp.MustCompile("^https?://")`. -/
def reURLHasSchemeMatch (s : String) : Bool :=
  goHasPrefix "http://" s || goHasPrefix "https://" s

/-- `reURLFormat = regexp.MustCompile("^([^=]+)==(.*)$")`: a nonempty run of
non-`'='` characters, then `"=="`, then any characters other than newline up
to the end.  `([^=]+)` is necessarily the segment before the first `'='`. -/
def reURLFormatMatch (s : String) : Bool :=
  let k := s.data.takeWhile (fun c => c ≠ '=')
  let rest := s.data.dropWhile (fun c => c ≠ '=')
  !k.isEmpty &&
    (match rest with
     | '=' :: '=' :: v => v.all (fun c => c ≠ '\n')
     | _ => false)

/-- `reQueryItem = regexp.MustCompile("^([^=]+)=($|[^=](.*)$)")`: a nonempty
run of non-`'='` characters, one `'='`, then either the end of the string or
one character other than `'='` followed by any characters other than newline
up to the end. -/
def reQueryItemMatch (s : String) : Bool :=
  let k := s.data.takeWhile (fun c => c ≠ '=')
  let rest := s.data.dropWhile (fun c => c ≠ '=')
  !k.isEmpty &&
    (match rest with
     | ['='] => true
     | '=' :: c :: v => c ≠ '=' && v.all (fun c => c ≠ '\n')
     | _ => false)

/-! ## `net/url` query values

Go's `url.Values` is a `map[string][]string`.  We model it as an association
list in key insertion order; every operation the repository performs on it
(`Add`, `Encode`, iteration in `convertURLToString`) is either insensitive to
Go's randomized map iteration order or made deterministic again by the key
sort inside `Encode`, so this deterministic model is faithful. -/

abbrev GoValues : Type := List (String × List String)

/-- The keys of a `url.Values`, in insertion order. -/
def valuesKeys (q : GoValues) : List String :=
  q.map Prod.fst

/-- First-match association-list lookup. -/
def getVal {α : Type} : List (String × α) → String → Option α
  | [], _ => none
  | (k', v) :: t, k => if k' = k then some v else getVal t k

/-- Go `v[key]` on a `url.Values`: the slice of values for `key`
(`nil`, i.e. `[]`, when absent). -/
def valuesGet (q : GoValues) (k : String) : List String :=
  (getVal q k).getD []

/-- Go `url.Values.Add(key, value)`: append `value` to the slice stored under
`key`, creating the entry when absent. -/
def valuesAdd (q : GoValues) (k v : String) : GoValues :=
  match q with
  | [] => [(k, [v])]
  | (k', vs) :: t => if k' = k then (k', vs ++ [v]) :: t else (k', vs) :: valuesAdd t k v

/-- Upper-case hexadecimal digit, for percent-escaping. -/
def hexDigitUpper (n : Nat) : Char :=
  if n < 10 then Char.ofNat ('0'.toNat + n) else Char.ofNat ('A'.toNat + n - 10)

/-- Go `url.QueryEscape`: keep ASCII alphanumerics and `-._~`, turn a space
into `'+'`, and percent-escape every other byte with upper-case hex digits.
(Faithful for single-byte characters; all inputs of interest are ASCII.) -/
def queryEscape (s : String) : String :=
  ⟨s.data.foldr
    (fun c acc =>
      if c.isAlphanum || c = '-' || c = '_' || c = '.' || c = '~' then c :: acc
      else if c = ' ' then '+' :: acc
      else '%' :: hexDigitUpper (c.toNat / 16 % 16) :: hexDigitUpper (c.toNat % 16) :: acc)
    []⟩

/-- The `key=value` encodings of one key of a `url.Values`, then of the next,
in the given key order: the body of the two nested loops of
`url.Values.Encode`. -/
def encodeKeys (ks : List String) (q : GoValues) : List String :=
  match ks with
  | [] => []
  | k :: t => (valuesGet q k).map (fun v => queryEscape k ++ "=" ++ queryEscape v) ++ encodeKeys t q

/-- Go `url.Values.Encode()`: sort the keys (byte-wise ascending, which for
UTF-8 strings is the `String` linear order), then emit `key=value` pairs
joined by `'&'`, values of one key kept in slice order.  Note that values are
NOT sorted. -/
def valuesEncode (q : GoValues) : String :=
  "&".intercalate (encodeKeys (List.insertionSort (fun a b : String => a ≤ b) (valuesKeys q)) q)

/-! ## `net/url` query parsing -/

/-- Split a raw query on `'&'` and `';'` (the separators recognized by the
`url.ParseQuery` of the Go toolchains of this repository's era). -/
def splitSeps (l : List Char) : List (List Char) :=
  l.foldr
    (fun c acc =>
      if c = '&' ∨ c = ';' then [] :: acc else (c :: acc.headD []) :: acc.tail)
    [[]]

def isHexDigitCh (c : Char) : Bool :=
  c.isDigit || ('a' ≤ c && c ≤ 'f') || ('A' ≤ c && c ≤ 'F')

def hexValCh (c : Char) : Nat :=
  if c.isDigit then c.toNat - '0'.toNat
  else if 'a' ≤ c ∧ c ≤ 'f' then c.toNat - 'a'.toNat + 10
  else c.toNat - 'A'.toNat + 10

/-- Go `url.QueryUnescape`: `'+'` becomes a space, `%XX` becomes the byte
`0xXX`, a malformed percent escape is an error (`none`).  (Faithful for ASCII
results.) -/
def queryUnescape : List Char → Option (List Char)
  | [] => some []
  | '%' :: rest =>
    match rest with
    | a :: b :: rest' =>
      if isHexDigitCh a && isHexDigitCh b then
        (queryUnescape rest').map (fun t => Char.ofNat (16 * hexValCh a + hexValCh b) :: t)
      else none
    | _ => none
  | '+' :: rest => (queryUnescape rest).map (fun t => ' ' :: t)
  | c :: rest => (queryUnescape rest).map (fun t => c :: t)

/-- The ordered `(key, value)` pairs of a raw query string, as collected by
the loop of `url.ParseQuery`: split on separators, skip empty segments, split
each segment at its first `'='` (missing `'='` means an empty value),
unescape both parts, and silently drop a pair whose unescaping fails (the
error is discarded by `URL.Query()`). -/
def parseQueryPairs (s : String) : List (String × String) :=
  (splitSeps s.data).filterMap
    (fun seg =>
      if seg.isEmpty then none
      else
        let k := seg.takeWhile (fun c => c ≠ '=')
        let rest := seg.dropWhile (fun c => c ≠ '=')
        let v := rest.tail
        match queryUnescape k, queryUnescape v with
        | some k', some v' => some (⟨k'⟩, ⟨v'⟩)
        | _, _ => none)

/-- Go `url.ParseQuery` / `URL.Query()`: group the ordered pairs into a
`url.Values`, appending each value under its key in order of appearance. -/
def parseQuery (s : String) : GoValues :=
  (parseQueryPairs s).foldl (fun q kv => valuesAdd q kv.1 kv.2) []

/-! ## `net/url` URL model -/

/-- The projection of Go's `url.URL` used by this repository: scheme, host
(the authority, possibly containing a port), decoded path, raw query. -/
structure GoURL where
  scheme : String
  host : String
  path : String
  rawQuery : String
deriving DecidableEq, Repr

def isAuthorityEnd (c : Char) : Bool :=
  c = '/' || c = '?' || c = '#'

def isPathEnd (c : Char) : Bool :=
  c = '?' || c = '#'

/-- Go `url.Parse`, modelled for absolute `http://` / `https://` URLs (the
only shape `buildURL` ever produces, since `fillURL` prepends the default
scheme): the authority runs to the first `/`, `?` or `#`; the path to the
first `?` or `#`; a `?` introduces the raw query.  Other inputs are mapped to
`none`. -/
def parseURL (s : String) : Option GoURL :=
  if goHasPrefix "http://" s then some (mkParsedURL "http" (s.data.drop 7))
  else if goHasPrefix "https://" s then some (mkParsedURL "https" (s.data.drop 8))
  else none
where
  mkParsedURL (scheme : String) (rest : List Char) : GoURL :=
    let host := rest.takeWhile (fun c => !isAuthorityEnd c)
    let rest' := rest.dropWhile (fun c => !isAuthorityEnd c)
    let path := rest'.takeWhile (fun c => !isPathEnd c)
    let rest'' := rest'.dropWhile (fun c => !isPathEnd c)
    let rawQuery :=
      match rest'' with
      | '?' :: t => t.takeWhile (fun c => c ≠ '#')
      | _ => []
    ⟨scheme, ⟨host⟩, ⟨path⟩, ⟨rawQuery⟩⟩

/-- Go `url.URL.String()` for the URLs of this model. -/
def urlString (u : GoURL) : String :=
  u.scheme ++ "://" ++ u.host ++ u.path ++ (if u.rawQuery = "" then "" else "?" ++ u.rawQuery)

/-- Go `url.URL.Port()`: the digits after the last colon of the host, when
the host ends in a colon followed only by digits; otherwise the empty
string. -/
def urlPort (u : GoURL) : String :=
  let rev := u.host.data.reverse
  let ds := rev.takeWhile Char.isDigit
  match rev.dropWhile Char.isDigit with
  | ':' :: _ => ⟨ds.reverse⟩
  | _ => ""

/-- Go `url.URL.Hostname()`: the host with a valid `:port` suffix removed. -/
def urlHostname (u : GoURL) : String :=
  let rev := u.host.data.reverse
  match rev.dropWhile Char.isDigit with
  | ':' :: t => ⟨t.reverse⟩
  | _ => u.host

/-! ## Template substitution (`cmd/substitute.go`) -/

/-- One step of `reToken.ReplaceAllStringFunc` for
`reToken = regexp.MustCompile("<([^<>]+)>")`: scan left to right; at a `'<'`
try to read a nonempty run of characters other than `'<'`/`'>'` closed by a
`'>'`; on success emit the mapping's value for the name (after the
`TrimLeft`/`TrimRight` of the source this is exactly the run), or the empty
string when the name is absent, and continue after the `'>'`; the replacement
is not rescanned.  On failure emit the `'<'` and continue.
The recursion is driven by a fuel argument so that the definition is
structural (and hence reduces definitionally); one character of input is
consumed per step, so any fuel of at least the input length computes the
replacement in full. -/
def substCore (mapping : List (String × String)) : Nat → List Char → List Char
  | _, [] => []
  | 0, l => l
  | fuel + 1, c :: rest =>
    if c = '<' then
      let name := rest.takeWhile (fun d => d ≠ '<' && d ≠ '>')
      match rest.dropWhile (fun d => d ≠ '<' && d ≠ '>') with
      | '>' :: tail =>
        if name.isEmpty then '<' :: substCore mapping fuel rest
        else ((getVal mapping ⟨name⟩).getD "").data ++ substCore mapping fuel tail
      | _ => '<' :: substCore mapping fuel rest
    else c :: substCore mapping fuel rest

/-- `substitute(s, mapping)` of `cmd/substitute.go`: replace every
`<name>` token by `mapping[name]` (or the empty string when absent). -/
def substitute (s : String) (mapping : List (String × String)) : String :=
  ⟨substCore mapping s.data.length s.data⟩

/-! ## URL building (`cmd/utils.go`) -/

/-- Go map assignment `m[k] = v` on a string-keyed map modelled as an
association list: overwrite the entry when present, append otherwise. -/
def mapSet (m : List (String × String)) (k v : String) : List (String × String) :=
  match m with
  | [] => [(k, v)]
  | (k', v') :: t => if k' = k then (k, v) :: t else (k', v') :: mapSet t k v

/-- The segment `strings.Split(item, "==")[i]` used by `fillURL`. -/
def splitSegEqEq (item : String) (i : Nat) : String :=
  ⟨(goSplitEqEq item.data).getD i []⟩

/-- The segment `strings.Split(item, "=")[i]` used by `buildURL`. -/
def splitSegEq (item : String) (i : Nat) : String :=
  ⟨(goSplitEq item.data).getD i []⟩

/-- `fillURL` of `cmd/utils.go`, line for line:

1. if the URI starts with `':'`, prepend `defaultHost` to
   `strings.TrimLeft(uri, ":")` (all leading colons removed);
2. if the URI then matches `^:\d+`, prepend `defaultHost` verbatim;
3. if the URI does not start with `http://` or `https://`, prepend
   `defaultScheme + "://"`;
4. collect `key==value` request items (matching `reURLFormat`) into
   `formatMapping` by `strings.Split(item, "==")` taking segments 0 and 1,
   later items overwriting earlier ones, and apply `substitute`. -/
def fillURL (uri : String) (requestItems : List String) : String :=
  let uri1 := if goHasPrefix ":" uri then ⟨defaultHost.data ++ uri.data.dropWhile (fun c => c = ':')⟩ else uri
  let uri2 := if reURLOnlyPortMatch uri1 then defaultHost ++ uri1 else uri1
  let uri3 := if reURLHasSchemeMatch uri2 then uri2 else defaultScheme ++ "://" ++ uri2
  let formatMapping := requestItems.foldl
    (fun m item =>
      if reURLFormatMatch item then mapSet m (splitSegEqEq item 0) (splitSegEqEq item 1) else m)
    []
  substitute uri3 formatMapping

/-- The body of the query-merge loop of `buildURL`: an item matching
`reQueryItem` is split on every `'='` and segments 0 and 1 are added to the
query values; other items are ignored. -/
def addQueryItem (q : GoValues) (item : String) : GoValues :=
  if reQueryItemMatch item then valuesAdd q (splitSegEq item 0) (splitSegEq item 1) else q

/-- `buildURL` of `cmd/utils.go`: fill the URL, parse it, merge the
`key=value` request items into its query values, and re-encode the query. -/
def buildURL (uri : String) (requestItems : List String) : Option GoURL :=
  (parseURL (fillURL uri requestItems)).map
    (fun u =>
      let queryItems := requestItems.foldl addQueryItem (parseQuery u.rawQuery)
      { u with rawQuery := valuesEncode queryItems })

/-- `isValidMethod` of `cmd/utils.go`: the upper-cased token is one of the
nine HTTP methods of the `switch`. -/
def isValidMethod (method : String) : Bool :=
  let m := goToUpper method
  m = "GET" || m = "HEAD" || m = "POST" || m = "PUT" || m = "PATCH" ||
    m = "DELETE" || m = "OPTIONS" || m = "CONNECT" || m = "TRACE"

/-- The `PositionalArgument` struct of `cmd/utils.go`. -/
structure PositionalArgument where
  httpMethod : String
  uri : GoURL
  requestItems : List String
deriving DecidableEq, Repr

/-- `parsePositionalArguments` of `cmd/utils.go`.  `none` models the
`"too few arguments"` error and a URL build failure. -/
def parsePositionalArguments (args : List String) : Option PositionalArgument :=
  match args with
  | [] => none
  | [u] => (buildURL u []).map (fun url => ⟨"GET", url, []⟩)
  | a :: b :: rest =>
    if isValidMethod (goToUpper a) then
      (buildURL b rest).map (fun url => ⟨goToUpper a, url, rest⟩)
    else
      (buildURL a (b :: rest)).map (fun url => ⟨"GET", url, b :: rest⟩)

/-! ## `crypto/sha1`, `crypto/hmac`, `encoding/base64`

Executable models of the Go standard-library crypto collaborators, over byte
lists (`List Nat`, each element `< 256`).  Words are `Nat` reduced modulo
`2 ^ 32` explicitly. -/

/-- Truncate to a 32-bit word. -/
def w32 (n : Nat) : Nat := n % 4294967296

/-- Rotate a 32-bit word left by `k`. -/
def rotl32 (k n : Nat) : Nat := w32 ((n <<< k) ||| (n >>> (32 - k)))

/-- Big-endian 4-byte encoding of a 32-bit word. -/
def beBytes4 (n : Nat) : List Nat :=
  [n >>> 24 &&& 255, n >>> 16 &&& 255, n >>> 8 &&& 255, n &&& 255]

/-- Big-endian 8-byte encoding of a 64-bit length. -/
def beBytes8 (n : Nat) : List Nat :=
  [n >>> 56 &&& 255, n >>> 48 &&& 255, n >>> 40 &&& 255, n >>> 32 &&& 255,
   n >>> 24 &&& 255, n >>> 16 &&& 255, n >>> 8 &&& 255, n &&& 255]

/-- SHA-1 round function. -/
def sha1F (i b c d : Nat) : Nat :=
  if i < 20 then (b &&& c) ||| ((4294967295 ^^^ b) &&& d)
  else if i < 40 then b ^^^ c ^^^ d
  else if i < 60 then (b &&& c) ||| (b &&& d) ||| (c &&& d)
  else b ^^^ c ^^^ d

/-- SHA-1 round constants. -/
def sha1K (i : Nat) : Nat :=
  if i < 20 then 1518500249
  else if i < 40 then 1859775393
  else if i < 60 then 2400959708
  else 3395469782

/-- SHA-1 message padding: append `0x80`, zeros to 56 mod 64, and the
big-endian 64-bit bit length. -/
def sha1Pad (msg : List Nat) : List Nat :=
  msg ++ 128 :: List.replicate ((119 - msg.length % 64) % 64) 0 ++ beBytes8 (msg.length * 8)

/-- Big-endian 32-bit words of a byte list. -/
def toWordsBE : List Nat → List Nat
  | b1 :: b2 :: b3 :: b4 :: rest => (((b1 * 256 + b2) * 256 + b3) * 256 + b4) :: toWordsBE rest
  | _ => []

/-- 64-byte blocks of a padded message, with a structural fuel argument
(every step consumes at least one byte, so fuel equal to the input length is
always enough). -/
def chunks64F : Nat → List Nat → List (List Nat)
  | _, [] => []
  | 0, l => [l]
  | fuel + 1, c :: rest => ((c :: rest).take 64) :: chunks64F fuel ((c :: rest).drop 64)

/-- 64-byte blocks of a padded message. -/
def chunks64 (l : List Nat) : List (List Nat) :=
  chunks64F l.length l

/-- Extend the 16 words of a block by `fuel` further schedule words. -/
def sha1Extend (fuel : Nat) (ws : List Nat) : List Nat :=
  match fuel with
  | 0 => ws
  | f + 1 =>
    let n := ws.length
    sha1Extend f
      (ws ++ [rotl32 1 (ws.getD (n - 3) 0 ^^^ ws.getD (n - 8) 0 ^^^ ws.getD (n - 14) 0 ^^^ ws.getD (n - 16) 0)])

/-- SHA-1 compression of one 64-byte block into the running state. -/
def sha1Compress (h : Nat × Nat × Nat × Nat × Nat) (block : List Nat) : Nat × Nat × Nat × Nat × Nat :=
  let ws := sha1Extend 64 (toWordsBE block)
  let fin := ws.enum.foldl
    (fun st p =>
      let a := st.1; let b := st.2.1; let c := st.2.2.1; let d := st.2.2.2.1; let e := st.2.2.2.2
      (w32 (rotl32 5 a + sha1F p.1 b c d + e + sha1K p.1 + p.2), a, rotl32 30 b, c, d))
    h
  (w32 (h.1 + fin.1), w32 (h.2.1 + fin.2.1), w32 (h.2.2.1 + fin.2.2.1),
   w32 (h.2.2.2.1 + fin.2.2.2.1), w32 (h.2.2.2.2 + fin.2.2.2.2))

/-- Go `sha1.New` / `Sum`: the SHA-1 digest (20 bytes) of a byte list. -/
def sha1Bytes (msg : List Nat) : List Nat :=
  let h := (chunks64 (sha1Pad msg)).foldl sha1Compress
    (1732584193, 4023233417, 2562383102, 271733878, 3285377520)
  beBytes4 h.1 ++ beBytes4 h.2.1 ++ beBytes4 h.2.2.1 ++ beBytes4 h.2.2.2.1 ++ beBytes4 h.2.2.2.2

/-- Go `crypto/hmac` over an arbitrary hash function with the given block
size: hash an over-long key, zero-pad, XOR with the inner/outer pads, and
hash twice. -/
def hmacDigest (hashFn : List Nat → List Nat) (blockSize : Nat) (key msg : List Nat) : List Nat :=
  let key1 := if key.length > blockSize then hashFn key else key
  let key2 := key1 ++ List.replicate (blockSize - key1.length) 0
  hashFn (key2.map (fun b => b ^^^ 92) ++ hashFn (key2.map (fun b => b ^^^ 54) ++ msg))

def base64Alphabet : List Char :=
  "ABCDEFGHIJKLMNOPQRSTUVWXYZabcdefghijklmnopqrstuvwxyz0123456789+/".data

def b64Ch (n : Nat) : Char := base64Alphabet.getD n 'A'

/-- Go `base64.StdEncoding.EncodeToString`, three input bytes at a time with
`'='` padding. -/
def base64Core : List Nat → List Char
  | [] => []
  | [b1] => [b64Ch (b1 >>> 2), b64Ch ((b1 &&& 3) <<< 4), '=', '=']
  | [b1, b2] =>
    [b64Ch (b1 >>> 2), b64Ch (((b1 &&& 3) <<< 4) ||| (b2 >>> 4)), b64Ch ((b2 &&& 15) <<< 2), '=']
  | b1 :: b2 :: b3 :: rest =>
    b64Ch (b1 >>> 2) :: b64Ch (((b1 &&& 3) <<< 4) ||| (b2 >>> 4)) ::
      b64Ch (((b2 &&& 15) <<< 2) ||| (b3 >>> 6)) :: b64Ch (b3 &&& 63) :: base64Core rest

def base64Encode (bs : List Nat) : String := ⟨base64Core bs⟩

/-- Go `[]byte(s)` for the ASCII strings of interest: one byte per
character. -/
def strBytes (s : String) : List Nat := s.data.map Char.toNat

/-! ## The gdauth signing engine (`vendor/bitbucket.org/mozillazg/gdauth/auth.go`) -/

/-- The `Signature` struct of `gdauth/auth.go`. -/
structure Signature where
  Method : String
  AccessKeyID : String
  AccessKeySecret : String
deriving DecidableEq, Repr

/-- The hash constructors a `switch` branch of `newHMACDigest` can select.
`sha1.New` is the only constructor the source ever assigns, in both the
`HMACSHA1V1` case and the `default` case. -/
inductive GoHashFunc where
  | sha1New
deriving DecidableEq, Repr

def goHashFuncImpl : GoHashFunc → (List Nat → List Nat)
  | .sha1New => sha1Bytes

def goHashFuncBlockSize : GoHashFunc → Nat
  | .sha1New => 64

/-- The `switch sign.Method` of `newHMACDigest`: `HMACSHA1V1` selects
`sha1.New`, and so does the `default` branch. -/
def chooseHashFunc (method : String) : GoHashFunc :=
  if method = HMACSHA1V1 then GoHashFunc.sha1New else GoHashFunc.sha1New

/-- `newHMACDigest` of `gdauth/auth.go`: HMAC the message with the secret,
using the hash selected from the signature method tag. -/
def newHMACDigest (sig : Signature) (msg : String) : List Nat :=
  let hashFunc := chooseHashFunc sig.Method
  hmacDigest (goHashFuncImpl hashFunc) (goHashFuncBlockSize hashFunc)
    (strBytes sig.AccessKeySecret) (strBytes msg)

/-- The `msgSlice` built by `sign` of `gdauth/auth.go`: six segments when the
custom-header block is nonempty, five otherwise, in the fixed order method,
content-MD5, content-type, date, (headers,) resource. -/
def signMsgSlice (reqMethod contentType contentMD5 resource headersStr date : String) : List String :=
  if headersStr.length > 0 then
    [reqMethod, contentMD5, contentType, date, headersStr, resource]
  else
    [reqMethod, contentMD5, contentType, date, resource]

/-- `sign` of `gdauth/auth.go`: newline-join the message slice, HMAC it, and
base64 the digest. -/
def signFn (sig : Signature) (reqMethod contentType contentMD5 resource headersStr date : String) : String :=
  base64Encode (newHMACDigest sig
    ("\n".intercalate (signMsgSlice reqMethod contentType contentMD5 resource headersStr date)))

/-- Go `http.Header`: canonical header keys mapped to value slices. -/
abbrev Header : Type := List (String × List String)

/-- Go `http.Header.Get`: the first value stored under the key, or `""`. -/
def headerGet (h : Header) (k : String) : String :=
  match getVal h k with
  | some (v :: _) => v
  | _ => ""

/-- Go `http.Header.Set`: replace the values under the key by the single
given value. -/
def headerSet (h : Header) (k v : String) : Header :=
  match h with
  | [] => [(k, [v])]
  | (k', vs) :: t => if k' = k then (k, [v]) :: t else (k', vs) :: headerSet t k v

/-- `getInternalHeaders` of `gdauth/auth.go`.  The named return
`internalHeaders map[string]string` is never initialized, so it is the nil
map: the first header whose lower-cased key starts with `x-gd-` causes an
assignment to an entry in a nil map, a Go runtime panic, modelled as `none`.
When no key matches, the loop assigns nothing and the nil map is returned,
which behaves as the empty map for reading: `some []`. -/
def getInternalHeaders (h : Header) : Option (List (String × String)) :=
  if h.any (fun kv => goHasPrefix internalHeaderPrefixStr (goToLower kv.1)) then none
  else some []

/-- `sortMapByKey` of `gdauth/auth.go`: collect the keys, `sort.Strings`
them, and list the pairs in sorted key order. -/
def sortMapByKey (m : List (String × String)) : List (String × String) :=
  (List.insertionSort (fun a b : String => a ≤ b) (m.map Prod.fst)).map
    (fun k => (k, (getVal m k).getD ""))

/-- `convertHeadersToString` of `gdauth/auth.go`: newline-join the sorted
`key:value` pairs of the internal headers (propagating the
`getInternalHeaders` panic). -/
def convertHeadersToString (h : Header) : Option String :=
  (getInternalHeaders h).map
    (fun m => "\n".intercalate ((sortMapByKey m).map (fun kv => kv.1 ++ ":" ++ kv.2)))

/-- The loop of `convertURLToString` that copies `u.Query()` into
`sortedQuery` by `Add`-ing every value of every key. -/
def readdValues (q : GoValues) : GoValues :=
  q.foldl (fun acc kv => kv.2.foldl (fun a v => valuesAdd a kv.1 v) acc) []

/-- `convertURLToString` of `gdauth/auth.go`: the resource is the URL path,
with `?` and the re-encoded (key-sorted) query appended when the query is
nonempty. -/
def convertURLToString (u : GoURL) : String :=
  let sortedQuery := readdValues (parseQuery u.rawQuery)
  if sortedQuery.length > 0 then u.path ++ "?" ++ valuesEncode sortedQuery else u.path

/-- The outgoing request state read and mutated by `SignReq`. -/
structure Request where
  method : String
  url : GoURL
  header : Header
deriving DecidableEq, Repr

/-- The canonical-string segments `SignReq` feeds to `sign` for a request:
`none` when extracting the custom headers panics. -/
def canonicalSegmentsOfReq (req : Request) (date : String) : Option (List String) :=
  (convertHeadersToString req.header).map
    (fun headersStr =>
      signMsgSlice req.method (headerGet req.header "Content-Type")
        (headerGet req.header "Content-MD5") (convertURLToString req.url) headersStr date)

/-- The base64 HMAC signature `SignReq` computes for a request (with the
custom-header block defaulted to `""`, which is the only non-panicking
case). -/
def signSignatureStr (sig : Signature) (date : String) (req : Request) : String :=
  signFn sig req.method (headerGet req.header "Content-Type")
    (headerGet req.header "Content-MD5") (convertURLToString req.url)
    ((convertHeadersToString req.header).getD "") date

/-- `SignReq` of `gdauth/auth.go`: read content type, content MD5, resource
and custom-header block from the request, sign, then set the `Date` header
and (via `setAuthHeader`) the `Authorization` header.  The `date` argument
stands for `time.Now().UTC().Format(http.TimeFormat)`, the RFC 1123 UTC
timestamp taken at signing time; `none` models the panic in
`getInternalHeaders`. -/
def SignReq (sig : Signature) (date : String) (req : Request) : Option Request :=
  let contentType := headerGet req.header "Content-Type"
  let contentMD5 := headerGet req.header "Content-MD5"
  let resource := convertURLToString req.url
  (convertHeadersToString req.header).map
    (fun headersStr =>
      let s := signFn sig req.method contentType contentMD5 resource headersStr date
      { req with
          header := headerSet (headerSet req.header "Date" date) "Authorization"
            (internalAuthPrefixStr ++ " " ++ sig.AccessKeyID ++ ":" ++ s) })

/-! ## Theorems for the claims -/

/-- Claim C1.  The claim states that building the canonical string and
signing is total for any well-formed request view, including headers whose
name starts case-insensitively with `x-gd-`.  The code refutes it:
`getInternalHeaders` assigns into a nil map, so the presence of any such
header is a runtime panic (modelled as `none`), and `SignReq` on a request
carrying the header `X-Gd-Token: abc` panics instead of completing. -/
theorem c1_signing_panics_on_custom_header :
    getInternalHeaders [("X-Gd-Token", ["abc"])] = none ∧
    SignReq ⟨HMACSHA1V1, "id", "secret"⟩ "Mon, 02 Jan 2006 15:04:05 GMT"
      ⟨"GET", ⟨"http", "localhost", "/v1/jobs", ""⟩,
        [("Content-Type", ["application/json"]), ("X-Gd-Token", ["abc"])]⟩ = none := by
  constructor
  · decide
  · decide

/-- Claim C2.  The claim states `normalize(":3000/foo", [])` yields scheme
`http`, host `localhost`, port `3000`, path `/foo`.  The code refutes it:
the leading-colon branch of `fillURL` strips the colon and produces
`http://localhost3000/foo`, whose host is `localhost3000` and whose port is
empty (the `^:\d+` branch that would have preserved the port is unreachable
after the first branch). -/
theorem c2_port_shorthand_loses_port :
    fillURL ":3000/foo" [] = "http://localhost3000/foo" ∧
    buildURL ":3000/foo" [] = some ⟨"http", "localhost3000", "/foo", ""⟩ ∧
    urlHostname ⟨"http", "localhost3000", "/foo", ""⟩ = "localhost3000" ∧
    urlPort ⟨"http", "localhost3000", "/foo", ""⟩ = "" := by
  refine ⟨by decide, by decide, by decide, by decide⟩

/-- Claim C4.  For a request with no custom headers the canonical string is
the newline join of exactly 5 segments in the order method, content-MD5,
content-type, timestamp, resource (shown here on a concrete request, and
counted); but for a request with a custom header the code produces no
canonical string at all: it panics in `getInternalHeaders` (`none`), so the
claimed 6-segment case is unreachable. -/
theorem c4_canonical_segment_count :
    canonicalSegmentsOfReq
        ⟨"GET", ⟨"http", "localhost", "/v1/jobs", ""⟩, [("Content-Type", ["application/json"])]⟩
        "Mon, 02 Jan 2006 15:04:05 GMT" =
      some ["GET", "", "application/json", "Mon, 02 Jan 2006 15:04:05 GMT", "/v1/jobs"] ∧
    (canonicalSegmentsOfReq
        ⟨"GET", ⟨"http", "localhost", "/v1/jobs", ""⟩, [("Content-Type", ["application/json"])]⟩
        "Mon, 02 Jan 2006 15:04:05 GMT").map List.length = some 5 ∧
    canonicalSegmentsOfReq
        ⟨"GET", ⟨"http", "localhost", "/v1/jobs", ""⟩,
          [("Content-Type", ["application/json"]), ("X-Gd-Test", ["1"])]⟩
        "Mon, 02 Jan 2006 15:04:05 GMT" = none := by
  refine ⟨by decide, by decide, by decide⟩

/-- Claim C5.  Signing with any (in particular an unknown, unsupported)
algorithm tag produces exactly the same HMAC digest and the same base64
output as signing with the supported `hmac-sha1-v1` tag: both the
`HMACSHA1V1` case and the `default` case of the `switch` in `newHMACDigest`
select `sha1.New`. -/
theorem c5_unknown_algorithm_falls_back_to_sha1 :
    ∀ (method keyID secret msg : String),
      newHMACDigest ⟨method, keyID, secret⟩ msg = newHMACDigest ⟨HMACSHA1V1, keyID, secret⟩ msg ∧
      base64Encode (newHMACDigest ⟨method, keyID, secret⟩ msg) =
        base64Encode (newHMACDigest ⟨HMACSHA1V1, keyID, secret⟩ msg) := by
  intro method keyID secret msg
  have h : chooseHashFunc method = chooseHashFunc HMACSHA1V1 := by
    simp [chooseHashFunc]
  constructor
  · simp only [newHMACDigest, h]
  · simp only [newHMACDigest, h]

/-- Claim C7.  Query merge accumulates duplicate keys:
`normalize("example.com", ["search=httpie", "search=cli"])` yields a URL
whose query string carries both values for `search`, in order. -/
theorem c7_query_merge_accumulates :
    buildURL "example.com" ["search=httpie", "search=cli"] =
      some ⟨"http", "example.com", "", "search=httpie&search=cli"⟩ ∧
    valuesGet (parseQuery "search=httpie&search=cli") "search" = ["httpie", "cli"] := by
  refine ⟨by decide, by decide⟩

/-- Claim C3, counterexample.  Two URLs carrying the same query multi-map
(the same `(key, value)` pairs, permuted: here the two orderings of the
repeated values of key `a`) produce different resource strings, hence
different canonical strings: `url.Values.Encode` sorts keys but keeps the
values of one key in supplied order, so the claim's invariance under
reordering of repeated values is false. -/
theorem c3_value_order_counterexample :
    List.Perm (parseQueryPairs "a=2&a=1") (parseQueryPairs "a=1&a=2") ∧
    convertURLToString ⟨"http", "h", "/p", "a=2&a=1"⟩ = "/p?a=2&a=1" ∧
    convertURLToString ⟨"http", "h", "/p", "a=1&a=2"⟩ = "/p?a=1&a=2" ∧
    convertURLToString ⟨"http", "h", "/p", "a=2&a=1"⟩ ≠
      convertURLToString ⟨"http", "h", "/p", "a=1&a=2"⟩ := by
  refine ⟨?_, by decide, by decide, by decide⟩
  have h1 : parseQueryPairs "a=2&a=1" = [("a", "2"), ("a", "1")] := by decide
  have h2 : parseQueryPairs "a=1&a=2" = [("a", "1"), ("a", "2")] := by decide
  rw [h1, h2]
  exact List.Perm.swap ("a", "1") ("a", "2") []

/-- Claim C8, counterexample.  With a single positional token that
case-insensitively matches a known method name (`"post"`), the token is NOT
taken as the HTTP method: the single-argument branch of
`parsePositionalArguments` always treats it as the URL and the method stays
`GET`, refuting the claimed "exactly when". -/
theorem c8_single_token_counterexample :
    isValidMethod "post" = true ∧
    parsePositionalArguments ["post"] = some ⟨"GET", ⟨"http", "post", "", ""⟩, []⟩ := by
  refine ⟨by decide, by decide⟩

/-! ### Header lemmas for the `SignReq` postcondition -/

theorem getVal_headerSet_same (h : Header) (k v : String) :
    getVal (headerSet h k v) k = some [v] := by
  induction h with
  | nil => simp [headerSet, getVal]
  | cons kv t ih =>
    obtain ⟨k', vs⟩ := kv
    by_cases hk : k' = k
    · simp [headerSet, hk, getVal]
    · simp [headerSet, hk, getVal, ih]

theorem getVal_headerSet_ne (h : Header) (k v k' : String) (hne : k ≠ k') :
    getVal (headerSet h k v) k' = getVal h k' := by
  induction h with
  | nil => simp [headerSet, getVal, hne]
  | cons kv t ih =>
    obtain ⟨k0, vs⟩ := kv
    by_cases hk : k0 = k
    · subst hk
      simp [headerSet, getVal, hne]
    · simp [headerSet, hk, getVal, ih]

/-- Claim C9.  Whenever `SignReq` completes (i.e. does not hit the
custom-header panic), the request it returns carries exactly the
`Authorization` header `"<internalAuthPrefix> <AccessKeyID>:<base64 HMAC
signature>"` and the `Date` header equal to the signing timestamp (the
RFC 1123 UTC formatted time passed for `time.Now().UTC().Format`). -/
theorem c9_auth_and_date_headers (sig : Signature) (date : String) (req r' : Request)
    (h : SignReq sig date req = some r') :
    headerGet r'.header "Authorization" =
      internalAuthPrefixStr ++ " " ++ sig.AccessKeyID ++ ":" ++ signSignatureStr sig date req ∧
    headerGet r'.header "Date" = date := by
  unfold SignReq at h
  cases hh : convertHeadersToString req.header with
  | none => rw [hh] at h; simp at h
  | some hs =>
    rw [hh] at h
    simp only [Option.map_some', Option.some.injEq] at h
    subst h
    constructor
    · show headerGet (headerSet (headerSet req.header "Date" date) "Authorization" _) "Authorization" = _
      unfold headerGet
      rw [getVal_headerSet_same]
      unfold signSignatureStr
      rw [hh]
      rfl
    · show headerGet (headerSet (headerSet req.header "Date" date) "Authorization" _) "Date" = _
      unfold headerGet
      rw [getVal_headerSet_ne _ _ _ _ (by decide), getVal_headerSet_same]

/-- Witness for C9 at a concrete request without custom headers. -/
theorem c9_auth_and_date_headers_witness :
    headerGet ((SignReq ⟨"hmac-sha1-v1", "AKID", "SECRET"⟩ "Mon, 02 Jan 2006 15:04:05 GMT"
        ⟨"GET", ⟨"http", "localhost", "/v1/jobs", ""⟩, []⟩).getD
        ⟨"", ⟨"", "", "", ""⟩, []⟩).header "Authorization" =
      internalAuthPrefixStr ++ " " ++ "AKID" ++ ":" ++
        signSignatureStr ⟨"hmac-sha1-v1", "AKID", "SECRET"⟩ "Mon, 02 Jan 2006 15:04:05 GMT"
          ⟨"GET", ⟨"http", "localhost", "/v1/jobs", ""⟩, []⟩ ∧
    headerGet ((SignReq ⟨"hmac-sha1-v1", "AKID", "SECRET"⟩ "Mon, 02 Jan 2006 15:04:05 GMT"
        ⟨"GET", ⟨"http", "localhost", "/v1/jobs", ""⟩, []⟩).getD
        ⟨"", ⟨"", "", "", ""⟩, []⟩).header "Date" = "Mon, 02 Jan 2006 15:04:05 GMT" :=
  c9_auth_and_date_headers ⟨"hmac-sha1-v1", "AKID", "SECRET"⟩ "Mon, 02 Jan 2006 15:04:05 GMT"
    ⟨"GET", ⟨"http", "localhost", "/v1/jobs", ""⟩, []⟩
    ((SignReq ⟨"hmac-sha1-v1", "AKID", "SECRET"⟩ "Mon, 02 Jan 2006 15:04:05 GMT"
        ⟨"GET", ⟨"http", "localhost", "/v1/jobs", ""⟩, []⟩).getD ⟨"", ⟨"", "", "", ""⟩, []⟩)
    (by rfl)

/-! ### Splitting lemmas for the query-item claims -/

theorem takeWhile_append_sep (p : Char → Bool) (a : List Char) (x : Char) (b : List Char)
    (ha : ∀ c ∈ a, p c = true) (hx : p x = false) :
    (a ++ x :: b).takeWhile p = a := by
  induction a with
  | nil => simp [List.takeWhile, hx]
  | cons c t ih =>
    have hc : p c = true := ha c (by simp)
    simp only [List.cons_append, List.takeWhile_cons, hc, if_true]
    rw [ih (fun d hd => ha d (by simp [hd]))]

theorem dropWhile_append_sep (p : Char → Bool) (a : List Char) (x : Char) (b : List Char)
    (ha : ∀ c ∈ a, p c = true) (hx : p x = false) :
    (a ++ x :: b).dropWhile p = x :: b := by
  induction a with
  | nil => simp [List.dropWhile, hx]
  | cons c t ih =>
    have hc : p c = true := ha c (by simp)
    simp only [List.cons_append, List.dropWhile_cons, hc, if_true]
    exact ih (fun d hd => ha d (by simp [hd]))

theorem goSplitEq_cons (c : Char) (l : List Char) :
    goSplitEq (c :: l) =
      if c = '=' then [] :: goSplitEq l
      else (c :: (goSplitEq l).headD []) :: (goSplitEq l).tail := rfl

theorem goSplitEq_append_sep (k rest : List Char) (hk : ∀ c ∈ k, c ≠ '=') :
    goSplitEq (k ++ '=' :: rest) = k :: goSplitEq rest := by
  induction k with
  | nil => simp [goSplitEq_cons]
  | cons c t ih =>
    have hc : c ≠ '=' := hk c (by simp)
    rw [List.cons_append, goSplitEq_cons, if_neg hc, ih (fun d hd => hk d (by simp [hd]))]
    simp

theorem reQueryItemMatch_append (k v : List Char) (hk : k ≠ []) (hk' : ∀ c ∈ k, c ≠ '=')
    (hv1 : v ≠ []) (hv2 : v.headD ' ' ≠ '=') (hv3 : ∀ c ∈ v.tail, c ≠ '\n') :
    reQueryItemMatch ⟨k ++ '=' :: v⟩ = true := by
  unfold reQueryItemMatch
  have hdata : (String.mk (k ++ '=' :: v)).data = k ++ '=' :: v := rfl
  rw [hdata]
  rw [takeWhile_append_sep _ _ _ _ (fun c hc => by simp [hk' c hc]) (by simp)]
  rw [dropWhile_append_sep _ _ _ _ (fun c hc => by simp [hk' c hc]) (by simp)]
  cases v with
  | nil => exact absurd rfl hv1
  | cons c0 vt =>
    simp only [List.headD_cons] at hv2
    simp only [List.tail_cons] at hv3
    have hke : k.isEmpty = false := by
      cases k with
      | nil => exact absurd rfl hk
      | cons a t => rfl
    show (!k.isEmpty && (decide (c0 ≠ '=') && vt.all fun c => decide (c ≠ '\n'))) = true
    rw [hke]
    simp only [Bool.not_false, Bool.true_and, Bool.and_eq_true, decide_eq_true_eq,
      List.all_eq_true]
    exact ⟨hv2, fun c hc => by simpa using hv3 c hc⟩

/-- Claim C10.  A request item `key=value` whose value itself contains `'='`
is accepted by `reQueryItem` but the merge splits on EVERY `'='` and keeps
only segment 1, so only the portion of the value before its first `'='` is
added under the key: in general `addQueryItem q (k ++ "=" ++ v1 ++ "=" ++
v2) = valuesAdd q k v1` whenever `k` and `v1` are nonempty, `'='`-free and
newline-free (`v2` newline-free); and concretely `normalize("example.com",
["a=b=c"])` yields the query `a=b`, not `a=b=c`. -/
theorem c10_query_value_truncated_at_first_eq :
    (∀ (q : GoValues) (k v1 v2 : List Char),
        k ≠ [] → (∀ c ∈ k, c ≠ '=') →
        v1 ≠ [] → (∀ c ∈ v1, c ≠ '=') → (∀ c ∈ v1, c ≠ '\n') → (∀ c ∈ v2, c ≠ '\n') →
        (reQueryItemMatch ⟨k ++ '=' :: (v1 ++ '=' :: v2)⟩ = true ∧
         addQueryItem q ⟨k ++ '=' :: (v1 ++ '=' :: v2)⟩ = valuesAdd q ⟨k⟩ ⟨v1⟩)) ∧
    buildURL "example.com" ["a=b=c"] = some ⟨"http", "example.com", "", "a=b"⟩ := by
  constructor
  · intro q k v1 v2 hk hk' hv1 hv1' hn1 hn2
    have hmatch : reQueryItemMatch ⟨k ++ '=' :: (v1 ++ '=' :: v2)⟩ = true := by
      apply reQueryItemMatch_append k (v1 ++ '=' :: v2) hk hk'
      · simp
      · cases v1 with
        | nil => exact absurd rfl hv1
        | cons c0 t => simpa using hv1' c0 (by simp)
      · intro c hc
        cases v1 with
        | nil => exact absurd rfl hv1
        | cons c0 t =>
          simp only [List.cons_append, List.tail_cons] at hc
          rcases List.mem_append.mp hc with h | h
          · exact hn1 c (by simp [h])
          · rcases List.mem_cons.mp h with h' | h'
            · simp [h']
            · exact hn2 c h'
    refine ⟨hmatch, ?_⟩
    unfold addQueryItem
    rw [hmatch]
    have hsplit : goSplitEq (k ++ '=' :: (v1 ++ '=' :: v2)) = k :: v1 :: goSplitEq v2 := by
      rw [goSplitEq_append_sep _ _ hk', goSplitEq_append_sep _ _ hv1']
    simp only [if_true]
    unfold splitSegEq
    have hdata : (String.mk (k ++ '=' :: (v1 ++ '=' :: v2))).data = k ++ '=' :: (v1 ++ '=' :: v2) := rfl
    rw [hdata, hsplit]
    rfl
  · decide

/-- Witness for the general part of C10 at the item `a=b=c`. -/
theorem c10_query_value_truncated_at_first_eq_witness :
    reQueryItemMatch ⟨['a'] ++ '=' :: (['b'] ++ '=' :: ['c'])⟩ = true ∧
    addQueryItem [] ⟨['a'] ++ '=' :: (['b'] ++ '=' :: ['c'])⟩ = valuesAdd [] ⟨['a']⟩ ⟨['b']⟩ :=
  c10_query_value_truncated_at_first_eq.1 [] ['a'] ['b'] ['c']
    (by decide) (by decide) (by decide) (by decide) (by decide) (by decide)

/-! ### Template-substitution lemmas -/

theorem substCore_no_token (m : List (String × String)) :
    ∀ (fuel : Nat) (l : List Char), l.length ≤ fuel → (∀ c ∈ l, c ≠ '<') →
      substCore m fuel l = l := by
  intro fuel
  induction fuel with
  | zero =>
    intro l h1 _
    cases l with
    | nil => rfl
    | cons c rest => simp at h1
  | succ f ih =>
    intro l h1 h2
    cases l with
    | nil => rfl
    | cons c rest =>
      have hc : c ≠ '<' := h2 c (by simp)
      simp only [substCore, if_neg hc]
      rw [ih rest (by simpa using Nat.le_of_succ_le_succ h1) (fun d hd => h2 d (by simp [hd]))]

theorem substCore_replaces_token (m : List (String × String)) (n : List Char)
    (hn : n ≠ []) (hn' : ∀ c ∈ n, c ≠ '<' ∧ c ≠ '>') :
    ∀ (fuel : Nat) (a b : List Char), (a ++ '<' :: (n ++ '>' :: b)).length ≤ fuel →
      (∀ c ∈ a, c ≠ '<') → (∀ c ∈ b, c ≠ '<') →
      substCore m fuel (a ++ '<' :: (n ++ '>' :: b)) =
        a ++ ((getVal m ⟨n⟩).getD "").data ++ b := by
  intro fuel
  induction fuel with
  | zero =>
    intro a b h1 _ _
    exfalso
    simp at h1
  | succ f ih =>
    intro a b h1 ha hb
    cases a with
    | nil =>
      simp only [List.nil_append]
      simp only [substCore, if_pos rfl]
      rw [takeWhile_append_sep _ n '>' b (fun c hc => by simp [(hn' c hc).1, (hn' c hc).2]) (by simp)]
      rw [dropWhile_append_sep _ n '>' b (fun c hc => by simp [(hn' c hc).1, (hn' c hc).2]) (by simp)]
      have hne : n.isEmpty = false := by
        cases n with
        | nil => exact absurd rfl hn
        | cons x t => rfl
      have hbf : b.length ≤ f := by
        simp only [List.nil_append, List.length_cons, List.length_append] at h1
        omega
      simp [hne, substCore_no_token m f b hbf hb]
    | cons c a' =>
      have hc : c ≠ '<' := ha c (by simp)
      have hlen : (a' ++ '<' :: (n ++ '>' :: b)).length ≤ f := by
        simp only [List.cons_append, List.length_cons, List.length_append] at h1 ⊢
        omega
      simp only [List.cons_append]
      simp only [substCore, if_neg hc]
      rw [ih a' b hlen (fun d hd => ha d (by simp [hd])) hb]

/-- Claim C6.  `normalize("example.com/jobs/<id>", ["id==42"])` yields
exactly the URL `http://example.com/jobs/42`; and in general `substitute`
replaces a `<name>` token by the mapping value of `name` (which `fillURL`
populates from the `key==value` request items) and by the empty string when
no mapping entry exists, keeping the surrounding text intact. -/
theorem c6_template_substitution :
    (buildURL "example.com/jobs/<id>" ["id==42"] =
        some ⟨"http", "example.com", "/jobs/42", ""⟩ ∧
      (buildURL "example.com/jobs/<id>" ["id==42"]).map urlString =
        some "http://example.com/jobs/42") ∧
    ∀ (m : List (String × String)) (a n b : List Char),
      (∀ c ∈ a, c ≠ '<') → n ≠ [] → (∀ c ∈ n, c ≠ '<' ∧ c ≠ '>') → (∀ c ∈ b, c ≠ '<') →
      substitute ⟨a ++ '<' :: (n ++ '>' :: b)⟩ m =
        ⟨a ++ ((getVal m ⟨n⟩).getD "").data ++ b⟩ := by
  constructor
  · exact ⟨by decide, by decide⟩
  · intro m a n b ha hn hn' hb
    unfold substitute
    exact congrArg String.mk
      (substCore_replaces_token m n hn hn' _ a b (le_refl _) ha hb)

/-- Witness for the general part of C6: the token `<id>` in `/jobs/<id>` is
replaced by the mapped value, with prefix and suffix kept. -/
theorem c6_template_substitution_witness :
    substitute ⟨['/', 'j'] ++ '<' :: (['i', 'd'] ++ '>' :: ['/', 'x'])⟩ [("id", "42")] =
      ⟨['/', 'j'] ++ ((getVal [("id", "42")] ⟨['i', 'd']⟩).getD "").data ++ ['/', 'x']⟩ :=
  c6_template_substitution.2 [("id", "42")] ['/', 'j'] ['i', 'd'] ['/', 'x']
    (by decide) (by decide) (by decide) (by decide)

/-- Claim C8, amended.  With two or more positional tokens, the first token
is taken as the (upper-cased) HTTP method exactly when it case-insensitively
matches one of the nine known methods, the second token becoming the URL and
the remaining tokens the request items; otherwise the method defaults to
`GET`, the first token is the URL and the rest are the request items.  A
single token is always the URL with method `GET` (see the counterexample for
the unamended claim). -/
theorem c8_amended_method_resolution :
    (∀ (a b : String) (rest : List String) (p : PositionalArgument),
        parsePositionalArguments (a :: b :: rest) = some p →
        (isValidMethod (goToUpper a) = true →
          p.httpMethod = goToUpper a ∧ p.requestItems = rest ∧ buildURL b rest = some p.uri) ∧
        (isValidMethod (goToUpper a) = false →
          p.httpMethod = "GET" ∧ p.requestItems = b :: rest ∧
            buildURL a (b :: rest) = some p.uri)) ∧
    (∀ (u : String) (p : PositionalArgument),
        parsePositionalArguments [u] = some p →
        p.httpMethod = "GET" ∧ p.requestItems = [] ∧ buildURL u [] = some p.uri) := by
  constructor
  · intro a b rest p hp
    simp only [parsePositionalArguments] at hp
    constructor
    · intro hv
      rw [if_pos hv] at hp
      cases hu : buildURL b rest with
      | none => rw [hu] at hp; simp at hp
      | some url =>
        rw [hu] at hp
        simp only [Option.map_some', Option.some.injEq] at hp
        subst hp
        exact ⟨rfl, rfl, rfl⟩
    · intro hv
      rw [if_neg (by simp [hv])] at hp
      cases hu : buildURL a (b :: rest) with
      | none => rw [hu] at hp; simp at hp
      | some url =>
        rw [hu] at hp
        simp only [Option.map_some', Option.some.injEq] at hp
        subst hp
        exact ⟨rfl, rfl, rfl⟩
  · intro u p hp
    simp only [parsePositionalArguments] at hp
    cases hu : buildURL u [] with
    | none => rw [hu] at hp; simp at hp
    | some url =>
      rw [hu] at hp
      simp only [Option.map_some', Option.some.injEq] at hp
      subst hp
      exact ⟨rfl, rfl, rfl⟩

/-- Witness for the amended C8: both the method branch (`delete
example.com`) and the URL-defaulting branch (`example.com a=1`) at concrete
inputs, plus the single-token case. -/
theorem c8_amended_method_resolution_witness :
    (((parsePositionalArguments ["delete", "example.com"]).getD
          ⟨"", ⟨"", "", "", ""⟩, []⟩).httpMethod = goToUpper "delete" ∧
      ((parsePositionalArguments ["delete", "example.com"]).getD
          ⟨"", ⟨"", "", "", ""⟩, []⟩).requestItems = [] ∧
      buildURL "example.com" [] =
        some ((parsePositionalArguments ["delete", "example.com"]).getD
          ⟨"", ⟨"", "", "", ""⟩, []⟩).uri) ∧
    (((parsePositionalArguments ["p.com"]).getD ⟨"", ⟨"", "", "", ""⟩, []⟩).httpMethod = "GET" ∧
      ((parsePositionalArguments ["p.com"]).getD ⟨"", ⟨"", "", "", ""⟩, []⟩).requestItems = [] ∧
      buildURL "p.com" [] =
        some ((parsePositionalArguments ["p.com"]).getD ⟨"", ⟨"", "", "", ""⟩, []⟩).uri) :=
  ⟨(c8_amended_method_resolution.1 "delete" "example.com" []
      ((parsePositionalArguments ["delete", "example.com"]).getD ⟨"", ⟨"", "", "", ""⟩, []⟩)
      (by rfl)).1 (by decide),
   c8_amended_method_resolution.2 "p.com"
      ((parsePositionalArguments ["p.com"]).getD ⟨"", ⟨"", "", "", ""⟩, []⟩) (by rfl)⟩

/-! ### Query-canonicalization lemmas for the amended C3

`convertURLToString` copies `u.Query()` into a fresh `url.Values` by `Add`
and re-encodes it with keys sorted.  The lemmas below show (a) the copy is
the identity on well-formed parsed queries, and (b) the encoding depends
only on the parsed query up to permutation of its (key, value-slice)
entries. -/

theorem valuesAdd_not_mem (acc : GoValues) (k v : String) (h : k ∉ valuesKeys acc) :
    valuesAdd acc k v = acc ++ [(k, [v])] := by
  induction acc with
  | nil => rfl
  | cons kv t ih =>
    obtain ⟨k', vs⟩ := kv
    have hk : k' ≠ k := by
      intro he
      exact h (by simp [valuesKeys, he])
    simp only [valuesAdd, if_neg hk, List.cons_append, List.cons.injEq, true_and]
    exact ih (fun hm => h (by simp [valuesKeys] at hm ⊢; exact Or.inr hm))

theorem valuesAdd_append_last (acc : GoValues) (k v : String) (vs : List String)
    (h : k ∉ valuesKeys acc) :
    valuesAdd (acc ++ [(k, vs)]) k v = acc ++ [(k, vs ++ [v])] := by
  induction acc with
  | nil => simp [valuesAdd]
  | cons kv t ih =>
    obtain ⟨k', vs'⟩ := kv
    have hk : k' ≠ k := by
      intro he
      exact h (by simp [valuesKeys, he])
    simp only [List.cons_append, valuesAdd, if_neg hk, List.cons.injEq, true_and]
    exact ih (fun hm => h (by simp [valuesKeys] at hm ⊢; exact Or.inr hm))

theorem addList_go (k : String) (vs : List String) :
    ∀ (acc : GoValues) (ws : List String), k ∉ valuesKeys acc →
      vs.foldl (fun a v => valuesAdd a k v) (acc ++ [(k, ws)]) = acc ++ [(k, ws ++ vs)] := by
  induction vs with
  | nil => intro acc ws _; simp
  | cons v vs' ih =>
    intro acc ws h
    simp only [List.foldl_cons]
    rw [valuesAdd_append_last acc k v ws h, ih acc (ws ++ [v]) h]
    simp

theorem addList_not_mem (acc : GoValues) (k : String) (vs : List String)
    (hvs : vs ≠ []) (h : k ∉ valuesKeys acc) :
    vs.foldl (fun a v => valuesAdd a k v) acc = acc ++ [(k, vs)] := by
  cases vs with
  | nil => exact absurd rfl hvs
  | cons v vs' =>
    simp only [List.foldl_cons]
    rw [valuesAdd_not_mem acc k v h, addList_go k vs' acc [v] h]
    rfl

theorem readdAux (q : GoValues) :
    ∀ (acc : GoValues), (∀ kv ∈ q, kv.1 ∉ valuesKeys acc) → (valuesKeys q).Nodup →
      (∀ kv ∈ q, kv.2 ≠ []) →
      q.foldl (fun acc kv => kv.2.foldl (fun a v => valuesAdd a kv.1 v) acc) acc = acc ++ q := by
  induction q with
  | nil => intro acc _ _ _; simp
  | cons kv t ih =>
    intro acc hdisj hnd hvs
    obtain ⟨k, vs⟩ := kv
    simp only [List.foldl_cons]
    rw [addList_not_mem acc k vs (hvs (k, vs) (by simp)) (hdisj (k, vs) (by simp))]
    simp only [valuesKeys, List.map_cons, List.nodup_cons] at hnd
    have hknot : k ∉ valuesKeys t := hnd.1
    rw [ih (acc ++ [(k, vs)]) ?hd ?hn ?hv]
    · simp
    case hd =>
      intro kv hm
      simp only [valuesKeys, List.map_append, List.mem_append] at *
      rintro (h | h)
      · exact hdisj kv (by simp [hm]) (by simpa [valuesKeys] using h)
      · simp only [List.map_cons, List.map_nil, List.mem_singleton] at h
        exact hknot (h ▸ List.mem_map_of_mem Prod.fst hm)
    case hn => exact hnd.2
    case hv => exact fun kv hm => hvs kv (by simp [hm])

/-- The copy loop of `convertURLToString` reproduces a parsed query with
duplicate-free keys and nonempty value slices. -/
theorem readd_eq_self (q : GoValues) (hnd : (valuesKeys q).Nodup) (hvs : ∀ kv ∈ q, kv.2 ≠ []) :
    readdValues q = q := by
  unfold readdValues
  rw [readdAux q [] (by simp [valuesKeys]) hnd hvs]
  simp

theorem valuesKeys_valuesAdd (q : GoValues) (k v : String) :
    valuesKeys (valuesAdd q k v) =
      if k ∈ valuesKeys q then valuesKeys q else valuesKeys q ++ [k] := by
  induction q with
  | nil => simp [valuesAdd, valuesKeys]
  | cons kv t ih =>
    obtain ⟨k', vs⟩ := kv
    by_cases hk : k' = k
    · subst hk
      simp [valuesAdd, valuesKeys]
    · simp only [valuesAdd, if_neg hk, valuesKeys, List.map_cons] at ih ⊢
      rw [ih]
      by_cases hm : k ∈ List.map Prod.fst t
      · rw [if_pos hm, if_pos (List.mem_cons_of_mem k' hm)]
      · rw [if_neg hm, if_neg ?hnm, List.cons_append]
        case hnm =>
          intro hc
          rcases List.mem_cons.mp hc with he | he
          · exact hk he.symm
          · exact hm he

theorem nodup_valuesAdd (q : GoValues) (k v : String) (hnd : (valuesKeys q).Nodup) :
    (valuesKeys (valuesAdd q k v)).Nodup := by
  rw [valuesKeys_valuesAdd]
  by_cases hm : k ∈ valuesKeys q
  · simpa [hm] using hnd
  · simp only [hm, if_false]
    simp [List.nodup_append, hnd, hm]

theorem values_ne_nil_valuesAdd (q : GoValues) (k v : String)
    (hvs : ∀ kv ∈ q, kv.2 ≠ []) :
    ∀ kv ∈ valuesAdd q k v, kv.2 ≠ [] := by
  induction q with
  | nil =>
    intro kv hm
    simp only [valuesAdd, List.mem_singleton] at hm
    subst hm
    simp
  | cons kv0 t ih =>
    obtain ⟨k', vs⟩ := kv0
    intro kv hm
    by_cases hk : k' = k
    · simp only [valuesAdd, if_pos hk] at hm
      rcases List.mem_cons.mp hm with h | h
      · subst h
        simp
      · exact hvs kv (by simp [h])
    · simp only [valuesAdd, if_neg hk] at hm
      rcases List.mem_cons.mp hm with h | h
      · subst h
        exact hvs (k', vs) (by simp)
      · exact ih (fun kv2 hm2 => hvs kv2 (by simp [hm2])) kv h

/-- `parseQuery` always yields duplicate-free keys and nonempty value
slices. -/
theorem parseQuery_wf (s : String) :
    (valuesKeys (parseQuery s)).Nodup ∧ ∀ kv ∈ parseQuery s, kv.2 ≠ [] := by
  unfold parseQuery
  generalize parseQueryPairs s = pairs
  have main : ∀ (pairs : List (String × String)) (q : GoValues),
      (valuesKeys q).Nodup → (∀ kv ∈ q, kv.2 ≠ []) →
      (valuesKeys (pairs.foldl (fun q kv => valuesAdd q kv.1 kv.2) q)).Nodup ∧
        ∀ kv ∈ pairs.foldl (fun q kv => valuesAdd q kv.1 kv.2) q, kv.2 ≠ [] := by
    intro pairs
    induction pairs with
    | nil => intro q h1 h2; exact ⟨h1, h2⟩
    | cons p t ih =>
      intro q h1 h2
      simp only [List.foldl_cons]
      exact ih (valuesAdd q p.1 p.2) (nodup_valuesAdd q p.1 p.2 h1)
        (values_ne_nil_valuesAdd q p.1 p.2 h2)
  exact main pairs [] (by simp [valuesKeys]) (by simp)

theorem getVal_perm {α : Type} {l1 l2 : List (String × α)} (h : l1.Perm l2) :
    ∀ (k : String), (l1.map Prod.fst).Nodup → getVal l1 k = getVal l2 k := by
  induction h with
  | nil => intro k _; rfl
  | cons x h ih =>
    intro k hnd
    obtain ⟨kx, vx⟩ := x
    by_cases hk : kx = k
    · simp [getVal, hk]
    · simp only [getVal, if_neg hk]
      exact ih k (by simpa using (List.nodup_cons.mp (by simpa using hnd)).2)
  | swap x y l =>
    intro k hnd
    obtain ⟨kx, vx⟩ := x
    obtain ⟨ky, vy⟩ := y
    have hxy : ky ≠ kx := by
      simp only [List.map_cons, List.nodup_cons, List.mem_cons] at hnd
      exact fun he => hnd.1 (Or.inl he)
    by_cases hky : ky = k
    · subst hky
      simp [getVal, Ne.symm hxy]
    · by_cases hkx : kx = k
      · subst hkx
        simp [getVal, hky]
      · simp [getVal, hky, hkx]
  | trans h1 h2 ih1 ih2 =>
    intro k hnd
    rw [ih1 k hnd, ih2 k (((h1.map Prod.fst).nodup_iff).mp hnd)]

theorem insertionSort_eq_of_perm (ks1 ks2 : List String) (h : ks1.Perm ks2) :
    List.insertionSort (fun a b : String => a ≤ b) ks1 =
      List.insertionSort (fun a b : String => a ≤ b) ks2 :=
  List.eq_of_perm_of_sorted
    ((List.perm_insertionSort _ ks1).trans (h.trans (List.perm_insertionSort _ ks2).symm))
    (List.sorted_insertionSort _ ks1) (List.sorted_insertionSort _ ks2)

theorem encodeKeys_congr (ks : List String) (q1 q2 : GoValues)
    (h : ∀ k, valuesGet q1 k = valuesGet q2 k) :
    encodeKeys ks q1 = encodeKeys ks q2 := by
  induction ks with
  | nil => rfl
  | cons k t ih => simp only [encodeKeys, h k, ih]

theorem valuesEncode_perm (q1 q2 : GoValues) (h : q1.Perm q2)
    (hnd : (valuesKeys q1).Nodup) :
    valuesEncode q1 = valuesEncode q2 := by
  have hkeys : (valuesKeys q1).Perm (valuesKeys q2) := h.map Prod.fst
  have hget : ∀ k, valuesGet q1 k = valuesGet q2 k := by
    intro k
    unfold valuesGet
    rw [getVal_perm h k (by simpa [valuesKeys] using hnd)]
  unfold valuesEncode
  rw [insertionSort_eq_of_perm _ _ hkeys,
    encodeKeys_congr (List.insertionSort (fun a b : String => a ≤ b) (valuesKeys q2)) q1 q2 hget]

/-- Claim C3, amended.  The canonical resource string (and hence the
canonical string and the signature) is invariant under any reordering of the
query that leaves the parsed key-to-value-slice map intact, i.e. under
permutations of the grouped `(key, values)` entries: `Encode` re-sorts the
keys.  (Reordering the values under one repeated key is NOT covered, and
indeed changes the output — see the counterexample.) -/
theorem c3_amended_key_permutation_invariance (u1 u2 : GoURL)
    (hpath : u1.path = u2.path)
    (hperm : (parseQuery u1.rawQuery).Perm (parseQuery u2.rawQuery)) :
    convertURLToString u1 = convertURLToString u2 := by
  obtain ⟨hnd1, hvs1⟩ := parseQuery_wf u1.rawQuery
  obtain ⟨hnd2, hvs2⟩ := parseQuery_wf u2.rawQuery
  unfold convertURLToString
  rw [readd_eq_self _ hnd1 hvs1, readd_eq_self _ hnd2 hvs2, hpath]
  simp only [hperm.length_eq, valuesEncode_perm _ _ hperm hnd1]

/-- Witness for the amended C3: the queries `b=2&a=1` and `a=1&b=2` carry
the same parsed map with keys supplied in different order and canonicalize
identically. -/
theorem c3_amended_key_permutation_invariance_witness :
    convertURLToString ⟨"http", "h", "/p", "b=2&a=1"⟩ =
      convertURLToString ⟨"http", "h", "/p", "a=1&b=2"⟩ :=
  c3_amended_key_permutation_invariance ⟨"http", "h", "/p", "b=2&a=1"⟩
    ⟨"http", "h", "/p", "a=1&b=2"⟩ rfl
    (by
      rw [show parseQuery "b=2&a=1" = [("b", ["2"]), ("a", ["1"])] from by decide,
        show parseQuery "a=1&b=2" = [("a", ["1"]), ("b", ["2"])] from by decide]
      exact List.Perm.swap ("a", ["1"]) ("b", ["2"]) [])

end Gdhttp
